import Mathlib

/-!
Verification of `src/util.ts` of coc-git.

Strings manipulated by the quoting / URL code are embedded as `List Char`
(`String.data`); the JavaScript functions are translated clause by clause
from the source.  The asynchronous process runner is embedded by making the
single nondeterministic input explicit: the completion event of the spawned
process (its exec result and the time, in milliseconds, at which the exec
callback fires), raced against the timer that `runCommand`/`getStdout`
install.  `equals` is embedded over a tree type of JavaScript values; its
recursion is realised with an explicit fuel argument that is always
sufficient (the source recursion terminates on trees), so the fuelled
function computes exactly the recursion of the source.
-/

/-! ### Character constants (quote, backslash, ...) used by util.ts -/

def sqC : Char := Char.ofNat 39

def bsC : Char := Char.ofNat 92

def dqC : Char := Char.ofNat 34

def nlC : Char := Char.ofNat 10

def spC : Char := Char.ofNat 32

def tbC : Char := Char.ofNat 9

def dlC : Char := Char.ofNat 36

def btC : Char := Char.ofNat 96

@[simp] theorem sqC_ne_bsC : ¬(sqC = bsC) := by decide

@[simp] theorem bsC_ne_sqC : ¬(bsC = sqC) := by decide

@[simp] theorem sqC_ne_nlC : ¬(sqC = nlC) := by decide

@[simp] theorem sqC_ne_dqC : ¬(sqC = dqC) := by decide

/-! ### `shellescape` (util.ts lines 4-15), POSIX branch -/

/-- The character class `[A-Za-z0-9_\/:=-]` of the test on util.ts line 8:
characters that need no quoting. -/
def safeCharPosix (c : Char) : Bool :=
  decide ('A' ≤ c ∧ c ≤ 'Z') || decide ('a' ≤ c ∧ c ≤ 'z') ||
    decide ('0' ≤ c ∧ c ≤ '9') || c == '_' || c == '/' || c == ':' ||
    c == '=' || c == '-'

/-- `s.replace(/'/g, "'\\''")` (util.ts line 9): every single quote becomes
the four characters close-quote, backslash, quote, reopen-quote. -/
def substQ : List Char → List Char
  | [] => []
  | c :: t => if c = sqC then sqC :: bsC :: sqC :: sqC :: substQ t else c :: substQ t

/-- `s.replace(/^(?:'')+/g, '')` (util.ts line 10): strip the maximal run of
leading quote pairs. -/
def pass1 : List Char → List Char
  | c1 :: c2 :: t => if c1 = sqC ∧ c2 = sqC then pass1 t else c1 :: c2 :: t
  | l => l

/-- `s.replace(/\\'''/g, "\\'")` (util.ts line 11): a left-to-right global
replacement of backslash-quote-quote-quote by backslash-quote, resuming
after each replaced occurrence, as JavaScript `String.replace` does. -/
def pass2 : List Char → List Char
  | [] => []
  | [c] => [c]
  | [c1, c2] => [c1, c2]
  | [c1, c2, c3] => [c1, c2, c3]
  | c1 :: c2 :: c3 :: c4 :: t =>
    if c1 = bsC ∧ c2 = sqC ∧ c3 = sqC ∧ c4 = sqC then bsC :: sqC :: pass2 t
    else c1 :: pass2 (c2 :: c3 :: c4 :: t)

/-- `shellescape` (util.ts lines 8-14), the POSIX (non-win32) branch:
if some character is outside the safe class, wrap in single quotes with
`substQ` and apply the two cleanup passes; otherwise return the string
unchanged. -/
def shellescapePosix (s : List Char) : List Char :=
  if s.any (fun c => !safeCharPosix c)
  then pass2 (pass1 (sqC :: (substQ s ++ [sqC])))
  else s

/-! ### A POSIX shell argument tokenizer

Used to state the round-trip property of C1.  `parseSh` reads one word:
outside quotes a backslash escapes the next character (backslash-newline is
a line continuation), single quotes quote everything up to the next single
quote, double quotes quote everything except that backslash still escapes
backslash, double-quote, dollar and backtick; an unquoted blank means the
input is not a single argument token, and an unterminated quote or trailing
backslash is an error. -/

inductive ShState where
  | out
  | insq
  | indq

def parseSh : ShState → List Char → Option (List Char)
  | .out, [] => some []
  | .out, c :: t =>
    if c = bsC then
      match t with
      | [] => none
      | d :: t2 => if d = nlC then parseSh .out t2 else (parseSh .out t2).map (fun r => d :: r)
    else if c = sqC then parseSh .insq t
    else if c = dqC then parseSh .indq t
    else if c = spC ∨ c = tbC ∨ c = nlC then none
    else (parseSh .out t).map (fun r => c :: r)
  | .insq, [] => none
  | .insq, c :: t =>
    if c = sqC then parseSh .out t
    else (parseSh .insq t).map (fun r => c :: r)
  | .indq, [] => none
  | .indq, c :: t =>
    if c = dqC then parseSh .out t
    else if c = bsC then
      match t with
      | [] => none
      | d :: t2 =>
        if d = nlC then parseSh .indq t2
        else if d = dqC ∨ d = bsC ∨ d = dlC ∨ d = btC then (parseSh .indq t2).map (fun r => d :: r)
        else (parseSh .indq t2).map (fun r => c :: d :: r)
    else (parseSh .indq t).map (fun r => c :: r)

/-! ### Closed form of the quoted output

`escAux false s` is the closed form of `pass2 (pass1 ('...'))` on `s`:
every maximal run of non-quote characters is wrapped in single quotes and
every single quote becomes an unquoted backslash-quote; the boolean records
whether a single-quoted segment is currently open. -/

def escAux : Bool → List Char → List Char
  | b, [] => if b then [sqC] else []
  | b, c :: t =>
    if c = sqC then
      (if b then sqC :: bsC :: sqC :: escAux false t else bsC :: sqC :: escAux false t)
    else
      (if b then c :: escAux true t else sqC :: c :: escAux true t)

/-- One scanning step of `pass2` when the head cannot open a match because it
is not a backslash. -/
theorem pass2_cons_ne (c : Char) (x : List Char) (h : ¬(c = bsC)) :
    pass2 (c :: x) = c :: pass2 x := by
  match x with
  | [] => rfl
  | [c2] => rfl
  | [c2, c3] => rfl
  | c2 :: c3 :: c4 :: t =>
    rw [pass2, if_neg (fun hcon => h hcon.1)]

/-- One scanning step of `pass2` when the tail cannot supply the three
quotes of a match. -/
theorem pass2_cons_gen (c : Char) (x : List Char)
    (h : ∀ r, ¬(x = sqC :: sqC :: sqC :: r)) :
    pass2 (c :: x) = c :: pass2 x := by
  match x with
  | [] => rfl
  | [c2] => rfl
  | [c2, c3] => rfl
  | c2 :: c3 :: c4 :: t =>
    rw [pass2, if_neg]
    intro hcon
    exact h t (by rw [hcon.2.1, hcon.2.2.1, hcon.2.2.2])

/-- The replacing step of `pass2`. -/
theorem pass2_bs_match (t : List Char) :
    pass2 (bsC :: sqC :: sqC :: sqC :: t) = bsC :: sqC :: pass2 t := by
  rw [pass2, if_pos ⟨rfl, rfl, rfl, rfl⟩]

/-- `substQ t ++ [sqC]` never starts with two quotes. -/
theorem substQ_nostart (t : List Char) (r : List Char) :
    ¬(substQ t ++ [sqC] = sqC :: sqC :: r) := by
  match t with
  | [] =>
    intro h
    rw [substQ] at h
    simp at h
  | c :: u =>
    by_cases hcq : c = sqC
    · subst hcq
      rw [substQ, if_pos rfl]
      intro h
      simp at h
    · rw [substQ, if_neg hcq]
      intro h
      simp at h
      exact hcq h.1

/-- Joint closed form of `pass2` on the two shapes produced after `pass1`:
inside an open quoted segment, and just after an escaped quote that is
followed by a reopen-quote. -/
theorem pass2_substQ : ∀ n t, List.length t ≤ n →
    pass2 (substQ t ++ [sqC]) = escAux true t ∧
    pass2 (bsC :: sqC :: sqC :: (substQ t ++ [sqC])) = bsC :: sqC :: escAux false t := by
  intro n
  induction n with
  | zero =>
    intro t ht
    have ht0 : t = [] := List.eq_nil_of_length_eq_zero (Nat.le_zero.mp ht)
    subst ht0
    exact ⟨by decide, by decide⟩
  | succ n ih =>
    intro t ht
    match t with
    | [] => exact ih [] (Nat.zero_le n)
    | c :: t' =>
      have ht' : List.length t' ≤ n := by
        simp only [List.length_cons] at ht
        omega
      have h1 : pass2 (substQ (c :: t') ++ [sqC]) = escAux true (c :: t') := by
        by_cases hc : c = sqC
        · subst hc
          rw [substQ, if_pos rfl]
          simp only [List.cons_append]
          rw [pass2_cons_ne sqC _ sqC_ne_bsC]
          rw [(ih t' ht').2]
          simp [escAux]
        · rw [substQ, if_neg hc]
          simp only [List.cons_append]
          rw [pass2_cons_gen c _ (fun r => substQ_nostart t' (sqC :: r))]
          rw [(ih t' ht').1]
          simp [escAux, hc]
      refine ⟨h1, ?_⟩
      by_cases hc : c = sqC
      · subst hc
        rw [substQ, if_pos rfl]
        simp only [List.cons_append]
        rw [pass2_bs_match]
        rw [(ih t' ht').2]
        simp [escAux]
      · rw [substQ, if_neg hc]
        simp only [List.cons_append]
        rw [pass2_cons_gen bsC _ (by
          intro r hcon
          simp at hcon
          exact hc hcon.1)]
        rw [pass2_cons_ne sqC _ sqC_ne_bsC]
        rw [pass2_cons_ne sqC _ sqC_ne_bsC]
        have h1' : pass2 (c :: (substQ t' ++ [sqC])) = escAux true (c :: t') := by
          rw [substQ, if_neg hc] at h1
          simpa using h1
        rw [h1']
        simp [escAux, hc]

/-- The composition computed by the POSIX branch of `shellescape` equals the
closed form `escAux false`. -/
theorem shellescapePosix_closed (s : List Char) :
    pass2 (pass1 (sqC :: (substQ s ++ [sqC]))) = escAux false s := by
  match s with
  | [] => decide
  | c :: t =>
    by_cases hc : c = sqC
    · subst hc
      rw [substQ, if_pos rfl]
      simp only [List.cons_append]
      rw [show pass1 (sqC :: sqC :: (bsC :: sqC :: sqC :: (substQ t ++ [sqC]))) =
            pass1 (bsC :: sqC :: sqC :: (substQ t ++ [sqC])) from by
        rw [pass1, if_pos ⟨rfl, rfl⟩]]
      rw [show pass1 (bsC :: sqC :: (sqC :: (substQ t ++ [sqC]))) =
            bsC :: sqC :: (sqC :: (substQ t ++ [sqC])) from by
        rw [pass1, if_neg (fun h => bsC_ne_sqC h.1)]]
      rw [(pass2_substQ (List.length t) t le_rfl).2]
      simp [escAux]
    · rw [substQ, if_neg hc]
      simp only [List.cons_append]
      rw [show pass1 (sqC :: c :: (substQ t ++ [sqC])) = sqC :: c :: (substQ t ++ [sqC]) from by
        rw [pass1, if_neg (fun h => hc h.2)]]
      rw [pass2_cons_ne sqC _ sqC_ne_bsC]
      have h1 : pass2 (substQ (c :: t) ++ [sqC]) = escAux true (c :: t) :=
        (pass2_substQ (List.length (c :: t)) (c :: t) le_rfl).1
      rw [substQ, if_neg hc] at h1
      simp only [List.cons_append] at h1
      rw [h1]
      simp [escAux, hc]

/-- The tokenizer inverts the closed form, in both states. -/
theorem parse_escAux : ∀ n t, List.length t ≤ n →
    parseSh .out (escAux false t) = some t ∧ parseSh .insq (escAux true t) = some t := by
  intro n
  induction n with
  | zero =>
    intro t ht
    have ht0 : t = [] := List.eq_nil_of_length_eq_zero (Nat.le_zero.mp ht)
    subst ht0
    exact ⟨by decide, by decide⟩
  | succ n ih =>
    intro t ht
    match t with
    | [] => exact ih [] (Nat.zero_le n)
    | c :: t' =>
      have ht' : List.length t' ≤ n := by
        simp only [List.length_cons] at ht
        omega
      by_cases hc : c = sqC
      · subst hc
        constructor
        · rw [show escAux false (sqC :: t') = bsC :: sqC :: escAux false t' from by
            rw [escAux, if_pos rfl]; simp]
          rw [parseSh, if_pos rfl]
          simp only [sqC_ne_nlC, if_false]
          rw [(ih t' ht').1]
          rfl
        · rw [show escAux true (sqC :: t') = sqC :: (bsC :: sqC :: escAux false t') from by
            rw [escAux, if_pos rfl]; simp]
          rw [parseSh, if_pos rfl]
          rw [parseSh, if_pos rfl]
          simp only [sqC_ne_nlC, if_false]
          rw [(ih t' ht').1]
          rfl
      · constructor
        · rw [show escAux false (c :: t') = sqC :: (c :: escAux true t') from by
            rw [escAux, if_neg hc]; simp]
          rw [parseSh, if_neg sqC_ne_bsC, if_pos rfl]
          rw [parseSh, if_neg hc]
          rw [(ih t' ht').2]
          rfl
        · rw [show escAux true (c :: t') = c :: escAux true t' from by
            rw [escAux, if_neg hc]; simp]
          rw [parseSh, if_neg hc]
          rw [(ih t' ht').2]
          rfl

/-- C1: for every string that contains a single quote, the POSIX branch of
`shellescape` produces a token that a POSIX shell argument parser (including
the effect of the two cleanup passes of lines 10-11) reads back as exactly
the original string. -/
theorem shellescape_posix_roundtrip (s : List Char) (h : sqC ∈ s) :
    parseSh .out (shellescapePosix s) = some s := by
  have hq : s.any (fun c => !safeCharPosix c) = true := by
    rw [List.any_eq_true]
    exact ⟨sqC, h, by decide⟩
  rw [shellescapePosix, if_pos hq, shellescapePosix_closed]
  exact (parse_escAux (List.length s) s le_rfl).1

/-- Witness for C1 at the concrete input `it's`. -/
theorem shellescape_posix_roundtrip_witness :
    parseSh .out (shellescapePosix ['i', 't', sqC, 's']) = some ['i', 't', sqC, 's'] :=
  shellescape_posix_roundtrip ['i', 't', sqC, 's'] (by decide)

/-! ### The process runner: `runCommand`, `safeRun`, `getStdout`
(util.ts lines 17-25, 67-84, 86-103)

`runCommand` installs a timer when its `timeout` argument is truthy (zero or
absent disables it, line 70) that rejects after `timeout * 1000` ms
(line 73), and passes the command to `exec`; on callback it clears the
timer, rejects with the exit code and captured stderr when `err` is set
(line 78), else resolves with stdout (line 81).  The embedding makes the
race explicit: `completion` is `none` when the spawned process never
completes, or `some (r, t)` when the exec callback fires at `t` ms with
result `r`; the promise outcome is `none` (never settles) or `some` of an
`Except` (rejected / resolved).  The timer wins the race exactly when it is
armed and its deadline `timeoutSec * 1000` is strictly before `t`. -/

structure ExecResult where
  err : Option Int
  stdout : String
  stderr : String

/-- The message of the timer rejection on util.ts line 72. -/
def timeoutMsg (t : Nat) : String := "timeout after " ++ toString t ++ "s"

/-- The message of the exit rejection on util.ts line 78. -/
def execErrMsg (code : Int) (errText : String) : String :=
  "exited with " ++ toString code ++ "\n" ++ errText

/-- How the exec callback settles the promise (util.ts lines 75-82). -/
def execSettle (r : ExecResult) : Except String String :=
  match r.err with
  | some c => Except.error (execErrMsg c r.stderr)
  | none => Except.ok r.stdout

/-- `runCommand` (util.ts lines 67-84). -/
def runCommandM (timeoutSec : Nat) (completion : Option (ExecResult × Nat)) :
    Option (Except String String) :=
  match completion with
  | none => if timeoutSec ≠ 0 then some (Except.error (timeoutMsg timeoutSec)) else none
  | some (r, t) =>
    if timeoutSec ≠ 0 ∧ timeoutSec * 1000 < t then some (Except.error (timeoutMsg timeoutSec))
    else some (execSettle r)

/-- `getStdout` (util.ts lines 86-103): same timer, but the exec callback
ignores `err` and resolves with stdout when that is truthy (non-empty), else
resolves with no value. -/
def getStdoutM (timeoutSec : Nat) (completion : Option (ExecResult × Nat)) :
    Option (Except String (Option String)) :=
  match completion with
  | none => if timeoutSec ≠ 0 then some (Except.error (timeoutMsg timeoutSec)) else none
  | some (r, t) =>
    if timeoutSec ≠ 0 ∧ timeoutSec * 1000 < t then some (Except.error (timeoutMsg timeoutSec))
    else if r.stdout ≠ "" then some (Except.ok (some r.stdout)) else some (Except.ok none)

/-- `safeRun` (util.ts lines 17-25): awaits `runCommand(cmd, opts, 5000)`
and catches any rejection, logging it and returning `null` (embedded as
`some none`: the promise settles, with the null value). -/
def safeRunM (completion : Option (ExecResult × Nat)) : Option (Option String) :=
  match runCommandM 5000 completion with
  | none => none
  | some (Except.error _) => some none
  | some (Except.ok s) => some (some s)

/-- C6: when the process exits nonzero (before any timeout interference),
`runCommand` rejects with a message carrying the exit code and the captured
stderr text; on a zero exit it resolves with the captured stdout. -/
theorem runCommand_exit_behavior :
    (∀ (tm : Nat) (r : ExecResult) (t : Nat) (c : Int),
        ¬(tm ≠ 0 ∧ tm * 1000 < t) → r.err = some c →
        runCommandM tm (some (r, t)) =
          some (Except.error ("exited with " ++ toString c ++ "\n" ++ r.stderr))) ∧
    (∀ (tm : Nat) (r : ExecResult) (t : Nat),
        ¬(tm ≠ 0 ∧ tm * 1000 < t) → r.err = none →
        runCommandM tm (some (r, t)) = some (Except.ok r.stdout)) := by
  constructor
  · intro tm r t c h hc
    rw [runCommandM.eq_def]
    simp only [if_neg h]
    rw [execSettle, hc]
    rfl
  · intro tm r t h hc
    rw [runCommandM.eq_def]
    simp only [if_neg h]
    rw [execSettle, hc]

/-- Witness for C6: `exit 1` (exit code 1, stderr `boom`, no timeout) and a
successful command. -/
theorem runCommand_exit_behavior_witness :
    runCommandM 0 (some (⟨some 1, "", "boom"⟩, 50)) =
      some (Except.error ("exited with " ++ toString (1 : Int) ++ "\n" ++ "boom")) ∧
    runCommandM 0 (some (⟨none, "out", ""⟩, 50)) = some (Except.ok "out") :=
  ⟨runCommand_exit_behavior.1 0 ⟨some 1, "", "boom"⟩ 50 1 (by simp) rfl,
   runCommand_exit_behavior.2 0 ⟨none, "out", ""⟩ 50 (by simp) rfl⟩

/-- C5: a nonzero timeout makes `runCommand` reject with the timeout error
when the deadline (timeout seconds, times 1000) passes before the process
completes (also when it never completes); timeout zero (or absent, which
reaches the same falsy test on line 70) disables the timer entirely. -/
theorem runCommand_timeout_behavior :
    (∀ (tm : Nat) (r : ExecResult) (t : Nat), tm ≠ 0 → tm * 1000 < t →
        runCommandM tm (some (r, t)) = some (Except.error (timeoutMsg tm))) ∧
    (∀ tm : Nat, tm ≠ 0 → runCommandM tm none = some (Except.error (timeoutMsg tm))) ∧
    (∀ (r : ExecResult) (t : Nat), runCommandM 0 (some (r, t)) = some (execSettle r)) ∧
    runCommandM 0 none = none := by
  refine ⟨?_, ?_, ?_, rfl⟩
  · intro tm r t h1 h2
    rw [runCommandM.eq_def]
    simp only [if_pos (And.intro h1 h2)]
  · intro tm h
    rw [runCommandM.eq_def]
    simp only [if_pos h]
  · intro r t
    rw [runCommandM.eq_def]
    have h : ¬((0:Nat) ≠ 0 ∧ 0 * 1000 < t) := by simp
    simp only [if_neg h]

/-- Witness for C5: `sleep 10` (completes cleanly at 10000 ms) with a
1-second timeout rejects with the timeout error, not the exec result. -/
theorem runCommand_timeout_behavior_witness :
    runCommandM 1 (some (⟨none, "", ""⟩, 10000)) = some (Except.error (timeoutMsg 1)) ∧
    runCommandM 2 none = some (Except.error (timeoutMsg 2)) ∧
    runCommandM 0 (some (⟨none, "late", ""⟩, 99999999)) = some (Except.ok "late") :=
  ⟨runCommand_timeout_behavior.1 1 ⟨none, "", ""⟩ 10000 (by decide) (by decide),
   runCommand_timeout_behavior.2.1 2 (by decide),
   runCommand_timeout_behavior.2.2.1 ⟨none, "late", ""⟩ 99999999⟩

/-- Counterexample for C2: `getStdout` does NOT swallow every failure: when
a nonzero timeout elapses before completion its timer rejects the promise
with the timeout error (util.ts lines 89-93), instead of resolving with no
value as the claim states. -/
theorem getStdout_timeout_rejects :
    getStdoutM 1 (some (⟨none, "", ""⟩, 2000)) = some (Except.error (timeoutMsg 1)) := rfl

/-- C2 as amended: `safeRun` never propagates a failure (it always settles,
and settles with null whenever `runCommand` rejected for any reason), and
`getStdout` resolves — with stdout when non-empty, else with no value —
whenever its timer does not fire first (timeout zero, or completion not
after the deadline); its only rejection is the timeout rejection. -/
theorem safeRun_getStdout_swallow :
    (∀ c, (safeRunM c).isSome = true) ∧
    (∀ c e, runCommandM 5000 c = some (Except.error e) → safeRunM c = some none) ∧
    (∀ (r : ExecResult) (t tm : Nat), ¬(tm ≠ 0 ∧ tm * 1000 < t) →
        getStdoutM tm (some (r, t)) =
          some (Except.ok (if r.stdout ≠ "" then some r.stdout else none))) ∧
    (∀ (tm : Nat) (c : Option (ExecResult × Nat)) (e : String),
        getStdoutM tm c = some (Except.error e) → tm ≠ 0 ∧ e = timeoutMsg tm) := by
  refine ⟨?_, ?_, ?_, ?_⟩
  · intro c
    rcases c with _ | ⟨r, t⟩
    · simp [safeRunM, runCommandM]
    · simp only [safeRunM, runCommandM]
      by_cases h : (5000:Nat) ≠ 0 ∧ 5000 * 1000 < t
      · rw [if_pos h]
        rfl
      · rw [if_neg h]
        cases hre : r.err <;> simp [execSettle, hre]
  · intro c e h
    simp [safeRunM, h]
  · intro r t tm h
    rw [getStdoutM.eq_def]
    simp only [if_neg h]
    by_cases hs : r.stdout = ""
    · simp [hs]
    · simp [hs]
  · intro tm c e h
    rcases c with _ | ⟨r, t⟩
    · rw [getStdoutM.eq_def] at h
      by_cases htm : tm ≠ 0
      · simp only [if_pos htm] at h
        injection h with h2
        injection h2 with h3
        exact ⟨htm, h3.symm⟩
      · simp only [if_neg htm] at h
        exact absurd h (by simp)
    · rw [getStdoutM.eq_def] at h
      by_cases hc : tm ≠ 0 ∧ tm * 1000 < t
      · simp only [if_pos hc] at h
        injection h with h2
        injection h2 with h3
        exact ⟨hc.1, h3.symm⟩
      · simp only [if_neg hc] at h
        by_cases hs : r.stdout ≠ ""
        · simp only [if_pos hs] at h
          injection h with h2
          injection h2
        · simp only [if_neg hs] at h
          injection h with h2
          injection h2

/-- Witness for C2 (amended): each conjunct at a concrete input. -/
theorem safeRun_getStdout_swallow_witness :
    (safeRunM none).isSome = true ∧
    safeRunM (some (⟨some 2, "", ""⟩, 0)) = some none ∧
    getStdoutM 0 (some (⟨none, "ab", ""⟩, 7)) =
      some (Except.ok (if ("ab" : String) ≠ "" then some "ab" else none)) ∧
    ((1:Nat) ≠ 0 ∧ timeoutMsg 1 = timeoutMsg 1) :=
  ⟨safeRun_getStdout_swallow.1 none,
   safeRun_getStdout_swallow.2.1 (some (⟨some 2, "", ""⟩, 0)) (execErrMsg 2 "") rfl,
   safeRun_getStdout_swallow.2.2.1 ⟨none, "ab", ""⟩ 7 0 (by simp),
   safeRun_getStdout_swallow.2.2.2 1 (some (⟨none, "", ""⟩, 2000)) (timeoutMsg 1) rfl⟩

/-- C10: `safeRun` passes the literal 5000 as `runCommand`'s timeout (line
19), and `runCommand` multiplies by 1000 (line 73), so the timer fires only
for completions strictly beyond 5000000 ms: the effective deadline is 5000
seconds, not 5. -/
theorem safeRun_effective_timeout :
    (∀ (r : ExecResult) (t : Nat), t ≤ 5000000 →
        runCommandM 5000 (some (r, t)) = some (execSettle r)) ∧
    (∀ (r : ExecResult) (t : Nat), 5000000 < t →
        runCommandM 5000 (some (r, t)) = some (Except.error (timeoutMsg 5000))) ∧
    (∀ (r : ExecResult) (t : Nat), 5000000 < t → safeRunM (some (r, t)) = some none) ∧
    (∀ (r : ExecResult) (t : Nat), t ≤ 5000000 → r.err = none →
        safeRunM (some (r, t)) = some (some r.stdout)) := by
  have hno : ∀ t : Nat, t ≤ 5000000 → ¬((5000:Nat) ≠ 0 ∧ 5000 * 1000 < t) := by
    intro t ht h
    omega
  have hyes : ∀ t : Nat, 5000000 < t → ((5000:Nat) ≠ 0 ∧ 5000 * 1000 < t) := by
    intro t ht
    constructor
    · omega
    · omega
  refine ⟨?_, ?_, ?_, ?_⟩
  · intro r t ht
    rw [runCommandM.eq_def]
    simp only [if_neg (hno t ht)]
  · intro r t ht
    rw [runCommandM.eq_def]
    simp only [if_pos (hyes t ht)]
  · intro r t ht
    rw [safeRunM.eq_def, runCommandM.eq_def]
    simp only [if_pos (hyes t ht)]
  · intro r t ht he
    rw [safeRunM.eq_def, runCommandM.eq_def]
    simp only [if_neg (hno t ht)]
    rw [execSettle, he]

/-- Witness for C10: a completion at 5000000 ms is still served by the exec
result; one at 5000001 ms is beaten by the timer. -/
theorem safeRun_effective_timeout_witness :
    runCommandM 5000 (some (⟨none, "ok", ""⟩, 5000000)) = some (execSettle ⟨none, "ok", ""⟩) ∧
    runCommandM 5000 (some (⟨none, "ok", ""⟩, 5000001)) =
      some (Except.error (timeoutMsg 5000)) ∧
    safeRunM (some (⟨none, "ok", ""⟩, 5000001)) = some none ∧
    safeRunM (some (⟨none, "ok", ""⟩, 5000000)) = some (some "ok") :=
  ⟨safeRun_effective_timeout.1 ⟨none, "ok", ""⟩ 5000000 (by decide),
   safeRun_effective_timeout.2.1 ⟨none, "ok", ""⟩ 5000001 (by decide),
   safeRun_effective_timeout.2.2.1 ⟨none, "ok", ""⟩ 5000001 (by decide),
   safeRun_effective_timeout.2.2.2 ⟨none, "ok", ""⟩ 5000000 (by decide) rfl⟩

/-! ### `equals` (util.ts lines 105-161)

JavaScript values are embedded as trees: the primitives (`null`,
`undefined`, booleans, numbers, strings, plus the number `NaN` as a
distinguished value, since `NaN === NaN` is false), arrays, and plain
mappings as association lists.  `===` on primitives is value equality
(except on `NaN`); reference equality of composites is not representable in
a value embedding, so `tripleEq` is false on composites — the source then
compares them structurally anyway, so `eqJs` agrees with `equals` on
distinct (non-shared) values; `NaN` itself is compared faithfully.  The
recursion of `equals` is realised by `eqJsF` with a fuel argument (first
parameter); `eqJs` supplies the always-sufficient fuel
`sizeJs a + sizeJs b`. -/

inductive JsVal where
  | jnull
  | undef
  | bool (b : Bool)
  | num (n : Int)
  | str (s : String)
  | nan
  | arr (xs : List JsVal)
  | obj (kvs : List (String × JsVal))

mutual
def sizeJs : JsVal → Nat
  | .arr xs => 1 + sizeL xs
  | .obj kvs => 2 + sizeKV kvs
  | _ => 1
def sizeL : List JsVal → Nat
  | [] => 0
  | v :: t => sizeJs v + sizeL t
def sizeKV : List (String × JsVal) → Nat
  | [] => 0
  | p :: t => 1 + sizeJs p.2 + sizeKV t
end

mutual
def nanFree : JsVal → Bool
  | .nan => false
  | .arr xs => nanFreeL xs
  | .obj kvs => nanFreeKV kvs
  | _ => true
def nanFreeL : List JsVal → Bool
  | [] => true
  | v :: t => nanFree v && nanFreeL t
def nanFreeKV : List (String × JsVal) → Bool
  | [] => true
  | p :: t => nanFree p.2 && nanFreeKV t
end

def isPrimJs : JsVal → Bool
  | .arr _ | .obj _ => false
  | _ => true

/-- `===` on primitive values: equal primitives are strictly equal, except
that `NaN === NaN` is false. -/
def primEq : JsVal → JsVal → Bool
  | .jnull, .jnull => true
  | .undef, .undef => true
  | .bool a, .bool b => decide (a = b)
  | .num a, .num b => decide (a = b)
  | .str a, .str b => decide (a = b)
  | _, _ => false

/-- The `one === other` test on util.ts line 106 (value embedding: true
exactly on equal non-NaN primitives). -/
def tripleEq (a b : JsVal) : Bool := isPrimJs a && primEq a b

/-- JavaScript `typeof` (note `typeof null` is `"object"`). -/
def typeOfJs : JsVal → String
  | .jnull => "object"
  | .undef => "undefined"
  | .bool _ => "boolean"
  | .num _ | .nan => "number"
  | .str _ => "string"
  | .arr _ | .obj _ => "object"

/-- `one === null || one === undefined` (util.ts lines 110-113). -/
def isNullish : JsVal → Bool
  | .jnull | .undef => true
  | _ => false

/-- `Array.isArray` (util.ts line 123). -/
def isArrJs : JsVal → Bool
  | .arr _ => true
  | _ => false

/-- Lexicographic comparison of character lists by code units: the default
sort order of JavaScript `Array.prototype.sort` on strings. -/
def leChars : List Char → List Char → Bool
  | [], _ => true
  | _ :: _, [] => false
  | a :: x, b :: y => if a < b then true else if b < a then false else leChars x y

def strLe (a b : String) : Prop := leChars a.data b.data = true

instance : DecidableRel strLe := fun a b =>
  inferInstanceAs (Decidable (leChars a.data b.data = true))

/-- `oneKeys.sort()` (util.ts lines 145, 150).  Object keys are distinct, so
any comparison sort computes the same list. -/
def sortStr (l : List String) : List String := List.insertionSort strLe l

/-- Property access `one[key]` (util.ts line 155): the value stored at the
key, `undefined` when absent. -/
def lookupJs (kvs : List (String × JsVal)) (k : String) : JsVal :=
  match kvs.find? (fun p => decide (p.1 = k)) with
  | some p => p.2
  | none => JsVal.undef

/-- `equals` (util.ts lines 105-161), with fuel: the guards of lines
106-125 in order, then the array loop (lines 130-138: length check and
pairwise recursion) or the mapping branch (lines 139-159: both key lists
sorted, compared by the recursive call `equals(oneKeys, otherKeys)` on the
two string arrays, then the values at the sorted keys of `one`). -/
def eqJsF : Nat → JsVal → JsVal → Bool
  | 0, _, _ => false
  | n+1, one, other =>
    if tripleEq one other then true
    else if isNullish one || isNullish other then false
    else if typeOfJs one ≠ typeOfJs other then false
    else if typeOfJs one ≠ "object" then false
    else if isArrJs one ≠ isArrJs other then false
    else match one, other with
      | .arr xs, .arr ys =>
        decide (xs.length = ys.length) && (xs.zip ys).all (fun p => eqJsF n p.1 p.2)
      | .obj kvs1, .obj kvs2 =>
        let ks1 := sortStr (kvs1.map Prod.fst)
        let ks2 := sortStr (kvs2.map Prod.fst)
        eqJsF n (.arr (ks1.map .str)) (.arr (ks2.map .str)) &&
          ks1.all (fun k => eqJsF n (lookupJs kvs1 k) (lookupJs kvs2 k))
      | _, _ => true

/-- `equals` with its always-sufficient fuel. -/
def eqJs (a b : JsVal) : Bool := eqJsF (sizeJs a + sizeJs b) a b

theorem leChars_total (x : List Char) : ∀ y, leChars x y = true ∨ leChars y x = true := by
  induction x with
  | nil => intro y; left; rfl
  | cons a t ih =>
    intro y
    cases y with
    | nil => right; rfl
    | cons b u =>
      rcases lt_trichotomy a b with h | h | h
      · left; rw [leChars, if_pos h]
      · subst h
        rcases ih u with h2 | h2
        · left; rw [leChars, if_neg (lt_irrefl a), if_neg (lt_irrefl a)]; exact h2
        · right; rw [leChars, if_neg (lt_irrefl a), if_neg (lt_irrefl a)]; exact h2
      · right; rw [leChars, if_pos h]

theorem leChars_trans (x : List Char) :
    ∀ y z, leChars x y = true → leChars y z = true → leChars x z = true := by
  induction x with
  | nil => intro y z _ _; rfl
  | cons a t ih =>
    intro y z h1 h2
    cases y with
    | nil => rw [leChars] at h1; simp at h1
    | cons b u =>
      cases z with
      | nil => rw [leChars] at h2; simp at h2
      | cons c v =>
        rw [leChars] at h1 h2 ⊢
        by_cases hab : a < b
        · by_cases hbc : b < c
          · rw [if_pos (lt_trans hab hbc)]
          · by_cases hcb : c < b
            · rw [if_neg hbc, if_pos hcb] at h2; simp at h2
            · have hbceq : b = c := le_antisymm (le_of_not_lt hcb) (le_of_not_lt hbc)
              subst hbceq
              rw [if_pos hab]
        · by_cases hba : b < a
          · rw [if_neg hab, if_pos hba] at h1; simp at h1
          · have habeq : a = b := le_antisymm (le_of_not_lt hba) (le_of_not_lt hab)
            subst habeq
            rw [if_neg hab, if_neg hab] at h1
            by_cases hac : a < c
            · rw [if_pos hac]
            · by_cases hca : c < a
              · rw [if_neg hac, if_pos hca] at h2; simp at h2
              · have haceq : a = c := le_antisymm (le_of_not_lt hca) (le_of_not_lt hac)
                subst haceq
                rw [if_neg hac, if_neg hac] at h2 ⊢
                exact ih u v h1 h2

theorem leChars_antisymm (x : List Char) :
    ∀ y, leChars x y = true → leChars y x = true → x = y := by
  induction x with
  | nil =>
    intro y _ h2
    cases y with
    | nil => rfl
    | cons b u => rw [leChars] at h2; simp at h2
  | cons a t ih =>
    intro y h1 h2
    cases y with
    | nil => rw [leChars] at h1; simp at h1
    | cons b u =>
      rw [leChars] at h1 h2
      by_cases hab : a < b
      · rw [if_neg (asymm hab), if_pos hab] at h2; simp at h2
      · by_cases hba : b < a
        · rw [if_neg hab, if_pos hba] at h1; simp at h1
        · have habeq : a = b := le_antisymm (le_of_not_lt hba) (le_of_not_lt hab)
          subst habeq
          rw [if_neg hab, if_neg hab] at h1 h2
          rw [ih u h1 h2]

instance : IsTotal String strLe := ⟨fun a b => leChars_total a.data b.data⟩

instance : IsTrans String strLe := ⟨fun a b c => leChars_trans a.data b.data c.data⟩

instance : IsAntisymm String strLe :=
  ⟨fun a b h1 h2 => String.ext (leChars_antisymm a.data b.data h1 h2)⟩

/-- Permuted inputs sort to the same key list. -/
theorem sortStr_perm_eq (l1 l2 : List String) (h : l1.Perm l2) : sortStr l1 = sortStr l2 :=
  List.eq_of_perm_of_sorted
    ((List.perm_insertionSort strLe l1).trans (h.trans (List.perm_insertionSort strLe l2).symm))
    (List.sorted_insertionSort strLe l1)
    (List.sorted_insertionSort strLe l2)

theorem lookupJs_cons (p : String × JsVal) (l : List (String × JsVal)) (k : String) :
    lookupJs (p :: l) k = if p.1 = k then p.2 else lookupJs l k := by
  by_cases hk : p.1 = k
  · simp only [lookupJs, if_pos hk]
    rw [List.find?_cons_of_pos]
    exact decide_eq_true hk
  · simp only [lookupJs, if_neg hk]
    rw [List.find?_cons_of_neg]
    simp [hk]

/-- With duplicate-free keys, property lookup is invariant under
permutation of the entry list. -/
theorem lookupJs_perm {kvs1 kvs2 : List (String × JsVal)} (h : kvs1.Perm kvs2)
    (hnd : (kvs1.map Prod.fst).Nodup) (k : String) :
    lookupJs kvs1 k = lookupJs kvs2 k := by
  induction h with
  | nil => rfl
  | cons p hp ih =>
    rw [lookupJs_cons, lookupJs_cons]
    by_cases hk : p.1 = k
    · rw [if_pos hk, if_pos hk]
    · rw [if_neg hk, if_neg hk]
      apply ih
      rw [List.map_cons, List.nodup_cons] at hnd
      exact hnd.2
  | swap x y l =>
    rw [lookupJs_cons, lookupJs_cons, lookupJs_cons, lookupJs_cons]
    rw [List.map_cons, List.map_cons, List.nodup_cons, List.nodup_cons] at hnd
    by_cases hky : y.1 = k
    · rw [if_pos hky]
      by_cases hkx : x.1 = k
      · exfalso
        exact hnd.1 (by rw [List.mem_cons]; left; rw [hky, hkx])
      · rw [if_neg hkx, if_pos hky]
    · rw [if_neg hky]
      by_cases hkx : x.1 = k
      · rw [if_pos hkx, if_pos hkx]
      · rw [if_neg hkx, if_neg hkx, if_neg hky]
  | trans h1 h2 ih1 ih2 =>
    rw [ih1 hnd]
    apply ih2
    exact (List.Perm.nodup_iff (h1.map Prod.fst)).mp hnd

@[simp] theorem sizeJs_str (s : String) : sizeJs (JsVal.str s) = 1 := by simp [sizeJs]

@[simp] theorem sizeJs_undef : sizeJs JsVal.undef = 1 := by simp [sizeJs]

@[simp] theorem nanFree_str (s : String) : nanFree (JsVal.str s) = true := by simp [nanFree]

@[simp] theorem nanFree_undef : nanFree JsVal.undef = true := by simp [nanFree]

@[simp] theorem nanFree_arr (xs : List JsVal) : nanFree (JsVal.arr xs) = nanFreeL xs := by
  simp [nanFree]

@[simp] theorem nanFree_obj (kvs : List (String × JsVal)) :
    nanFree (JsVal.obj kvs) = nanFreeKV kvs := by
  simp [nanFree]

theorem sizeJs_pos (a : JsVal) : 1 ≤ sizeJs a := by
  cases a <;> simp only [sizeJs] <;> omega

theorem sizeL_mem {xs : List JsVal} {x : JsVal} (h : x ∈ xs) : sizeJs x ≤ sizeL xs := by
  induction xs with
  | nil => simp at h
  | cons a t ih =>
    rw [sizeL]
    rcases List.mem_cons.mp h with h1 | h1
    · subst h1; exact Nat.le_add_right _ _
    · exact Nat.le_trans (ih h1) (Nat.le_add_left _ _)

theorem sizeKV_mem {kvs : List (String × JsVal)} {p : String × JsVal} (h : p ∈ kvs) :
    sizeJs p.2 ≤ sizeKV kvs := by
  induction kvs with
  | nil => simp at h
  | cons q t ih =>
    rw [sizeKV]
    rcases List.mem_cons.mp h with h1 | h1
    · subst h1; omega
    · have := ih h1; omega

theorem sizeKV_len (kvs : List (String × JsVal)) : kvs.length ≤ sizeKV kvs := by
  induction kvs with
  | nil => simp [sizeKV]
  | cons q t ih =>
    rw [sizeKV, List.length_cons]
    omega

theorem sizeL_map_str (l : List String) : sizeL (l.map JsVal.str) = l.length := by
  induction l with
  | nil => rfl
  | cons a t ih =>
    rw [List.map_cons, sizeL, ih, List.length_cons, sizeJs_str]
    omega

theorem sizeKV_perm {kvs1 kvs2 : List (String × JsVal)} (h : kvs1.Perm kvs2) :
    sizeKV kvs1 = sizeKV kvs2 := by
  induction h with
  | nil => rfl
  | cons p hp ih => rw [sizeKV, sizeKV, ih]
  | swap x y l => rw [sizeKV, sizeKV, sizeKV, sizeKV]; omega
  | trans h1 h2 ih1 ih2 => rw [ih1, ih2]

theorem sizeJs_lookup (kvs : List (String × JsVal)) (k : String) :
    sizeJs (lookupJs kvs k) ≤ 1 + sizeKV kvs := by
  cases hf : kvs.find? (fun p => decide (p.1 = k)) with
  | none => simp [lookupJs, hf]
  | some p =>
    have hm : p ∈ kvs := List.mem_of_find?_eq_some hf
    have h2 := sizeKV_mem hm
    simp only [lookupJs, hf]
    omega

theorem nanFreeL_mem {xs : List JsVal} {x : JsVal} (h : x ∈ xs) (hn : nanFreeL xs = true) :
    nanFree x = true := by
  induction xs with
  | nil => simp at h
  | cons a t ih =>
    rw [nanFreeL, Bool.and_eq_true] at hn
    rcases List.mem_cons.mp h with h1 | h1
    · subst h1; exact hn.1
    · exact ih h1 hn.2

theorem nanFreeKV_mem {kvs : List (String × JsVal)} {p : String × JsVal} (h : p ∈ kvs)
    (hn : nanFreeKV kvs = true) : nanFree p.2 = true := by
  induction kvs with
  | nil => simp at h
  | cons q t ih =>
    rw [nanFreeKV, Bool.and_eq_true] at hn
    rcases List.mem_cons.mp h with h1 | h1
    · subst h1; exact hn.1
    · exact ih h1 hn.2

theorem nanFreeL_map_str (l : List String) : nanFreeL (l.map JsVal.str) = true := by
  induction l with
  | nil => rfl
  | cons a t ih =>
    rw [List.map_cons, nanFreeL, ih, nanFree_str]
    rfl

theorem nanFree_lookup (kvs : List (String × JsVal)) (k : String)
    (hn : nanFreeKV kvs = true) : nanFree (lookupJs kvs k) = true := by
  cases hf : kvs.find? (fun p => decide (p.1 = k)) with
  | none => simp [lookupJs, hf]
  | some p =>
    simp only [lookupJs, hf]
    exact nanFreeKV_mem (List.mem_of_find?_eq_some hf) hn

theorem zip_same {l : List JsVal} {p : JsVal × JsVal} (h : p ∈ l.zip l) :
    p.1 = p.2 ∧ p.1 ∈ l := by
  induction l with
  | nil => simp at h
  | cons a t ih =>
    rw [List.zip_cons_cons] at h
    rcases List.mem_cons.mp h with h1 | h1
    · subst h1; exact ⟨rfl, List.mem_cons_self a t⟩
    · exact ⟨(ih h1).1, List.mem_cons_of_mem a (ih h1).2⟩

/-- Unfolding of `equals` on two arrays: guards pass, then the length check
and the elementwise loop. -/
theorem eqJsF_arr_step (n : Nat) (xs ys : List JsVal) :
    eqJsF (n+1) (.arr xs) (.arr ys) =
      (decide (xs.length = ys.length) && (xs.zip ys).all (fun p => eqJsF n p.1 p.2)) := by
  rw [eqJsF]
  simp [tripleEq, isPrimJs, isNullish, typeOfJs, isArrJs]

/-- Unfolding of `equals` on two mappings: guards pass, then the sorted-key
comparison and the value loop over the sorted keys of `one`. -/
theorem eqJsF_obj_step (n : Nat) (kvs1 kvs2 : List (String × JsVal)) :
    eqJsF (n+1) (.obj kvs1) (.obj kvs2) =
      (eqJsF n (.arr ((sortStr (kvs1.map Prod.fst)).map JsVal.str))
          (.arr ((sortStr (kvs2.map Prod.fst)).map JsVal.str)) &&
        (sortStr (kvs1.map Prod.fst)).all
          (fun k => eqJsF n (lookupJs kvs1 k) (lookupJs kvs2 k))) := by
  rw [eqJsF]
  simp [tripleEq, isPrimJs, isNullish, typeOfJs, isArrJs]

/-- `equals` is reflexive (at sufficient fuel) on every NaN-free value. -/
theorem eqJsF_refl : ∀ n a, sizeJs a + sizeJs a ≤ n → nanFree a = true → eqJsF n a a = true := by
  intro n
  induction n using Nat.strong_induction_on with
  | _ n ih =>
    intro a hsz hnf
    match n with
    | 0 =>
      exfalso
      have := sizeJs_pos a
      omega
    | m + 1 =>
      match a with
      | .jnull => simp [eqJsF, tripleEq, isPrimJs, primEq]
      | .undef => simp [eqJsF, tripleEq, isPrimJs, primEq]
      | .bool b => simp [eqJsF, tripleEq, isPrimJs, primEq]
      | .num i => simp [eqJsF, tripleEq, isPrimJs, primEq]
      | .str s => simp [eqJsF, tripleEq, isPrimJs, primEq]
      | .nan => rw [nanFree] at hnf; exact absurd hnf (by simp)
      | .arr xs =>
        rw [eqJsF_arr_step, Bool.and_eq_true]
        constructor
        · simp
        · rw [List.all_eq_true]
          intro p hp
          obtain ⟨hpe, hpm⟩ := zip_same hp
          rw [← hpe]
          simp only [sizeJs] at hsz
          have hsx : sizeJs p.1 ≤ sizeL xs := sizeL_mem hpm
          refine ih m (Nat.lt_succ_self m) p.1 (by omega) ?_
          rw [nanFree] at hnf
          exact nanFreeL_mem hpm hnf
      | .obj kvs =>
        rw [eqJsF_obj_step, Bool.and_eq_true]
        simp only [sizeJs] at hsz
        have hlen : (sortStr (kvs.map Prod.fst)).length = kvs.length := by
          rw [sortStr, List.length_insertionSort, List.length_map]
        have hkv : kvs.length ≤ sizeKV kvs := sizeKV_len kvs
        constructor
        · refine ih m (Nat.lt_succ_self m) _ ?_ ?_
          · simp only [sizeJs, sizeL_map_str, hlen]
            omega
          · rw [nanFree]
            exact nanFreeL_map_str _
        · rw [List.all_eq_true]
          intro k hk
          refine ih m (Nat.lt_succ_self m) _ ?_ ?_
          · have := sizeJs_lookup kvs k
            omega
          · rw [nanFree] at hnf
            exact nanFree_lookup kvs k hnf

/-- If `one === other` held in the embedding, both sides have the same
nullishness. -/
theorem tripleEq_nullish_eq (a b : JsVal) (h : tripleEq a b = true) :
    isNullish a = isNullish b := by
  cases a <;> cases b <;> simp_all [tripleEq, isPrimJs, primEq, isNullish]

/-- One step of `equals` when exactly one side is null-or-undefined. -/
theorem eqJsF_nullish_step (n : Nat) (a b : JsVal) (h : isNullish a ≠ isNullish b) :
    eqJsF (n+1) a b = false := by
  cases a <;> cases b <;> simp_all [eqJsF, tripleEq, isPrimJs, primEq, isNullish]

/-- Counterexample for C3: `equals(NaN, NaN)` is false (`NaN === NaN`
fails, the null checks pass, `typeof` matches but is not `"object"`, so the
function returns false on line 121), refuting reflexivity for every value. -/
theorem equals_nan_not_refl : eqJs JsVal.nan JsVal.nan = false := by
  rw [eqJs]
  simp only [sizeJs]
  decide

/-- C3 as amended: `equals(a, a)` is true for every value `a` that does not
contain the number `NaN` — including nested arrays and mappings; on `NaN`
itself (and values sharing no reference that contain it) reflexivity fails. -/
theorem equals_refl_nanfree (a : JsVal) (h : nanFree a = true) : eqJs a a = true := by
  rw [eqJs]
  exact eqJsF_refl (sizeJs a + sizeJs a) a le_rfl h

/-- Witness for C3 (amended) at a nested mapping. -/
theorem equals_refl_nanfree_witness :
    eqJs (JsVal.obj [("b", JsVal.arr [JsVal.num 1, JsVal.jnull]), ("a", JsVal.str "x")])
      (JsVal.obj [("b", JsVal.arr [JsVal.num 1, JsVal.jnull]), ("a", JsVal.str "x")]) = true :=
  equals_refl_nanfree _ (by simp [nanFree, nanFreeL, nanFreeKV])

/-- C8: when exactly one of the two values is null-or-missing, `equals`
returns false (lines 109-116); in particular the two distinct absence
representations compare unequal: `equals(null, undefined)` is false. -/
theorem equals_nullish_cases :
    (∀ a b, isNullish a ≠ isNullish b → eqJs a b = false) ∧
    eqJs JsVal.jnull JsVal.undef = false := by
  constructor
  · intro a b h
    rw [eqJs]
    obtain ⟨m, hm⟩ : ∃ m, sizeJs a + sizeJs b = m + 1 :=
      ⟨sizeJs a + sizeJs b - 1, by have := sizeJs_pos a; omega⟩
    rw [hm]
    exact eqJsF_nullish_step m a b h
  · rw [eqJs]
    simp only [sizeJs]
    decide

/-- Witness for C8 at a pair where exactly one side is nullish. -/
theorem equals_nullish_cases_witness : eqJs JsVal.jnull (JsVal.num 0) = false :=
  equals_nullish_cases.1 JsVal.jnull (JsVal.num 0) (by decide)

/-- Mapping comparison (at sufficient fuel) succeeds on permuted
duplicate-free NaN-free entry lists. -/
theorem eqJsF_obj_perm : ∀ n (kvs1 kvs2 : List (String × JsVal)),
    sizeJs (.obj kvs1) + sizeJs (.obj kvs2) ≤ n →
    kvs1.Perm kvs2 → (kvs1.map Prod.fst).Nodup → nanFreeKV kvs1 = true →
    eqJsF n (.obj kvs1) (.obj kvs2) = true := by
  intro n kvs1 kvs2 hsz hperm hnd hnf
  match n with
  | 0 =>
    exfalso
    have := sizeJs_pos (.obj kvs1)
    have := sizeJs_pos (.obj kvs2)
    omega
  | m + 1 =>
    rw [eqJsF_obj_step, Bool.and_eq_true]
    have hks : sortStr (kvs1.map Prod.fst) = sortStr (kvs2.map Prod.fst) :=
      sortStr_perm_eq _ _ (hperm.map Prod.fst)
    simp only [sizeJs] at hsz
    have hK : sizeKV kvs1 = sizeKV kvs2 := sizeKV_perm hperm
    have hlen1 : (sortStr (kvs1.map Prod.fst)).length = kvs1.length := by
      rw [sortStr, List.length_insertionSort, List.length_map]
    have hkv : kvs1.length ≤ sizeKV kvs1 := sizeKV_len kvs1
    constructor
    · rw [← hks]
      refine eqJsF_refl m _ ?_ ?_
      · simp only [sizeJs, sizeL_map_str, hlen1]
        omega
      · rw [nanFree]
        exact nanFreeL_map_str _
    · rw [List.all_eq_true]
      intro k hk
      rw [← lookupJs_perm hperm hnd k]
      refine eqJsF_refl m _ ?_ ?_
      · have := sizeJs_lookup kvs1 k
        omega
      · exact nanFree_lookup kvs1 k hnf

/-- C7: `equals` compares mappings through their sorted key lists and the
values at each sorted key, so the order of the entries is irrelevant: two
mappings holding the same duplicate-free (NaN-free) entries in any order
compare equal. -/
theorem equals_mapping_key_order (kvs1 kvs2 : List (String × JsVal))
    (hperm : kvs1.Perm kvs2) (hnd : (kvs1.map Prod.fst).Nodup)
    (hnf : nanFreeKV kvs1 = true) :
    eqJs (.obj kvs1) (.obj kvs2) = true := by
  rw [eqJs]
  exact eqJsF_obj_perm _ kvs1 kvs2 le_rfl hperm hnd hnf

/-- Witness for C7: `equals({a:1,b:2}, {b:2,a:1})` is true. -/
theorem equals_mapping_key_order_witness :
    eqJs (JsVal.obj [("a", JsVal.num 1), ("b", JsVal.num 2)])
      (JsVal.obj [("b", JsVal.num 2), ("a", JsVal.num 1)]) = true :=
  equals_mapping_key_order _ _ (List.Perm.swap ("b", JsVal.num 2) ("a", JsVal.num 1) [])
    (by decide) (by simp [nanFreeKV, nanFree])

/-! ### `getUrl` (util.ts lines 163-182)

The remote, branch, file path and the produced URL are embedded as
`List Char`.  The one nondeterministic collaborator, `Uri.parse` of
coc.nvim, is an external capability; its authority component is modelled
from the spec.  The `workspace.showMessage` warning side effect is made
part of the return value (`warnings`). -/

/-- `remote.replace(/\.git$/, '')` (util.ts line 164). -/
def stripGitSuffix (s : List Char) : List Char :=
  if s.reverse.take 4 = ['t', 'i', 'g', '.'] then s.take (s.length - 4) else s

/-- `uri.startsWith(pre)` for `List Char`. -/
def startsWithL : List Char → List Char → Bool
  | _, [] => true
  | [], _ :: _ => false
  | c :: cs, p :: ps => decide (c = p) && startsWithL cs ps

/-- JavaScript `String.split` on a single-character separator (all fields;
`split(sep, 2)` is `take 2` of this). -/
def splitOnCh (ch : Char) : List Char → List (List Char)
  | [] => [[]]
  | c :: t =>
    if c = ch then [] :: splitOnCh ch t
    else
      match splitOnCh ch t with
      | h :: r => (c :: h) :: r
      | [] => [[c]]

/-- The text a JavaScript template literal prints for `undefined`, which
`parts[1]` is when the sliced remote has no colon (util.ts line 168). -/
def undefinedChars : List Char := "undefined".data

/-- Modelled from the spec: the scheme separator scan of the external URI
parser (coc.nvim `Uri.parse`, §6 of the spec): the text after the first
`://`. -/
def afterSchemeSep : List Char → Option (List Char)
  | c1 :: c2 :: c3 :: t =>
    if c1 = ':' ∧ c2 = '/' ∧ c3 = '/' then some t else afterSchemeSep (c2 :: c3 :: t)
  | _ => none

/-- Modelled from the spec: the `authority` component (`host[:port]`) that
the external URI parser extracts — the text between the scheme separator
and the next slash; empty when the string has no scheme separator. -/
def uriAuthority (s : List Char) : List Char :=
  match afterSchemeSep s with
  | some r => r.takeWhile (fun c => decide (c ≠ '/'))
  | none => []

/-- Lines 164-169: strip `.git`, then rewrite a remote that starts with
`git` by dropping 4 characters, splitting once on `:` (JavaScript
`split(':', 2)`) and rebuilding `https://{parts[0]}/{parts[1]}`. -/
def normalizeRemote (remote : List Char) : List Char :=
  let uri := stripGitSuffix remote
  if startsWithL uri ['g', 'i', 't'] then
    let str := uri.drop 4
    let parts := (splitOnCh ':' str).take 2
    "https://".data ++ parts.getD 0 undefinedChars ++ ['/'] ++ parts.getD 1 undefinedChars
  else uri

/-- Decimal printing of a JavaScript number in a template literal, with
explicit fuel (structural recursion over the fuel computes in the kernel). -/
def natCharsAux : Nat → Nat → List Char
  | 0, _ => []
  | fuel + 1, n =>
    if n < 10 then [Char.ofNat (48 + n)]
    else natCharsAux fuel (n / 10) ++ [Char.ofNat (48 + n % 10)]

def natChars (n : Nat) : List Char := natCharsAux (n + 1) n

def intChars (i : Int) : List Char :=
  if i < 0 then '-' :: natChars i.natAbs else natChars i.natAbs

/-- The anchor of util.ts lines 172-177: a list of line numbers becomes
the `L`-prefixed dash-joined text, a string is used as-is, nothing
otherwise. -/
def anchorOf : Option (List Int ⊕ List Char) → List Char
  | some (Sum.inl ls) => List.intercalate ['-'] (ls.map (fun l => 'L' :: intChars l))
  | some (Sum.inr s) => s
  | none => []

structure UrlResult where
  url : List Char
  warnings : List (List Char)
  deriving DecidableEq

/-- The warning text of util.ts line 180. -/
def warnMsg (auth : List Char) : List Char :=
  "Can".data ++ [sqC] ++ "t get url form: ".data ++ auth

/-- `getUrl` (util.ts lines 163-182): normalize the remote, require a
`github.com` authority, build `{uri}/blob/{branch}/{filepath}` plus the
anchor when non-empty; otherwise warn and return the empty string. -/
def getUrlL (remote branch filepath : List Char) (lines : Option (List Int ⊕ List Char)) :
    UrlResult :=
  let uri := normalizeRemote remote
  if startsWithL (uriAuthority uri) "github.com".data then
    let anchor := anchorOf lines
    ⟨uri ++ "/blob/".data ++ branch ++ ['/'] ++ filepath ++
      (if anchor ≠ [] then '#' :: anchor else []), []⟩
  else
    ⟨[], [warnMsg (uriAuthority uri)]⟩

/-- C4: the SSH-style GitHub remote is rewritten to https and the
two-element line list becomes the `#L10-L20` anchor. -/
theorem getUrl_ssh_github_example :
    getUrlL "git@github.com:foo/bar.git".data "main".data "src/x.ts".data
        (some (Sum.inl [10, 20])) =
      ⟨"https://github.com/foo/bar/blob/main/src/x.ts#L10-L20".data, []⟩ := by
  decide

/-- C9: whenever the parsed authority of the normalized remote does not
start with `github.com`, `getUrl` returns the empty string and emits the
warning notification (it never throws: the function is total and this is
its only failure mode). -/
theorem getUrl_unsupported_host (remote branch filepath : List Char)
    (lines : Option (List Int ⊕ List Char))
    (h : startsWithL (uriAuthority (normalizeRemote remote)) "github.com".data = false) :
    getUrlL remote branch filepath lines =
      ⟨[], [warnMsg (uriAuthority (normalizeRemote remote))]⟩ := by
  rw [getUrlL]
  simp [h]

/-- Witness for C9 at the gitlab remote. -/
theorem getUrl_unsupported_host_witness :
    getUrlL "https://gitlab.com/foo/bar.git".data "main".data "x.ts".data none =
      ⟨[], [warnMsg "gitlab.com".data]⟩ := by
  rw [getUrl_unsupported_host "https://gitlab.com/foo/bar.git".data "main".data "x.ts".data
    none (by decide)]
  decide
